import Mathlib

/-!
Verification of the graph-embedding engine of `src/Embedding.py` (with the
constants of `src/Tools.py`).  The engine is embedded shallowly: numpy
vectors of length `d` become `Fin d → ℝ`, the node→vector dictionaries
become total functions `ℕ → Vec d` (with a separate key-checked variant,
over the dictionaries' key list, modelling `KeyError`), and the iteration
loop becomes a recursive `run` function on an explicit state.

Faithfulness notes, from the source:
* `Node_ID_2_Embedding_Temp` is created once, before the iteration loop
  (line 21 of `src/Embedding.py`), and is never re-zeroed inside the loop;
  the embedding keeps exactly this behaviour (`step` threads `temp` through).
* The per-iteration update is `v / (np.linalg.norm(v, ord=2) + EPSILON)`
  (line 32), the loss is `np.mean` over nodes of `np.mean(np.abs(v - v_new))`
  (lines 33-37), and the initializer divides a sample by its L2 norm with no
  zero-norm guard (lines 17-18).
-/

noncomputable section

namespace UTScholar

/-- A numpy array of length `d` (one embedding vector). -/
abbrev Vec (d : ℕ) := Fin d → ℝ

/-- `EMBEDDING_SIZE` of `src/Tools.py` (line 60). -/
def EMBEDDING_SIZE : ℕ := 32

/-- `ITERATION_COUNT` of `src/Tools.py` (line 61). -/
def ITERATION_COUNT : ℕ := 100

/-- `EPSILON` of `src/Tools.py` (line 62). -/
def EPSILON : ℝ := 0.01

/-- Sum of squared components of a vector. -/
def normSq {d : ℕ} (v : Vec d) : ℝ := ∑ i, v i ^ 2

/-- `np.linalg.norm(v, ord=2)`: the L2 norm. -/
def norm2 {d : ℕ} (v : Vec d) : ℝ := Real.sqrt (normSq v)

/-- The Vector Initializer's rescaling step
(`Embedding / np.linalg.norm(x=Embedding, ord=2)`, line 18 of
`src/Embedding.py`), applied to a sampled vector `s`.  There is no zero-norm
guard in the source: the division happens unconditionally.  (Real division by
zero is `0` in this embedding; in numpy it yields non-finite components —
either way the result of a zero-norm sample is not a unit vector.) -/
def initEmb {d : ℕ} (s : Vec d) : Vec d := fun i => s i / norm2 s

/-- The per-iteration renormalization `v / (np.linalg.norm(v, ord=2) + EPSILON)`
(line 32 of `src/Embedding.py`). -/
def normalizeEps {d : ℕ} (eps : ℝ) (v : Vec d) : Vec d :=
  fun i => v i / (norm2 v + eps)

/-- The `Edges` JSON mapping: each node id paired with the list of its stored
neighbours (`{A: [B, ...]}`). -/
abbrev EdgeDict := List (ℕ × List ℕ)

/-- The stored pairs `(A, B)` in the order the two nested loops of lines
27-31 of `src/Embedding.py` visit them. -/
def edgePairs (es : EdgeDict) : List (ℕ × ℕ) :=
  (es.map fun ab => ab.2.map fun b => (ab.1, b)).flatten

/-- Lines 30-31 of `src/Embedding.py`:
`Temp[A] += Emb[B]` then `Temp[B] += Emb[A]`, for one stored pair. -/
def accumPair {d : ℕ} (emb : ℕ → Vec d) (t : ℕ → Vec d) (p : ℕ × ℕ) :
    ℕ → Vec d :=
  let t1 := Function.update t p.1 (t p.1 + emb p.2)
  Function.update t1 p.2 (t1 p.2 + emb p.1)

/-- One full accumulation pass over the edge dictionary (the nested loops of
lines 27-31), starting from the current buffer `t`. -/
def accumulate {d : ℕ} (emb t : ℕ → Vec d) (es : EdgeDict) : ℕ → Vec d :=
  (edgePairs es).foldl (accumPair emb) t

/-- State of the diffusion loop: the current embedding dictionary, the
accumulation buffer (`Node_ID_2_Embedding_Temp`), and the loss list. -/
@[ext]
structure DState (d : ℕ) where
  emb : ℕ → Vec d
  temp : ℕ → Vec d
  losses : List ℝ

/-- `np.mean(np.abs(np.subtract(v, v_new)))` (line 36): mean absolute
per-component difference. -/
def meanAbsDiff {d : ℕ} (v w : Vec d) : ℝ := (∑ i, |v i - w i|) / d

/-- `np.mean` of a list of reals. -/
def listMean (xs : List ℝ) : ℝ := xs.sum / xs.length

/-- Lines 33-37: the per-iteration loss, the mean over the node list of the
per-node mean absolute per-component difference. -/
def lossOf {d : ℕ} (nodes : List ℕ) (vOld vNew : ℕ → Vec d) : ℝ :=
  listMean (nodes.map fun u => meanAbsDiff (vOld u) (vNew u))

/-- The tail of one loop iteration, given the accumulated buffer `t`:
build `Node_ID_2_Embedding_New` (line 32), append the loss (lines 33-38), and
replace the embedding dictionary (line 40).  The buffer `t` is carried into
the next iteration unchanged — the source never re-zeroes it. -/
def finishStep {d : ℕ} (nodes : List ℕ) (eps : ℝ) (s : DState d)
    (t : ℕ → Vec d) : DState d :=
  let newEmb : ℕ → Vec d := fun u => normalizeEps eps (t u)
  { emb := newEmb, temp := t, losses := s.losses ++ [lossOf nodes s.emb newEmb] }

/-- One iteration of the loop of lines 26-40 of `src/Embedding.py`. -/
def step {d : ℕ} (nodes : List ℕ) (es : EdgeDict) (eps : ℝ) (s : DState d) :
    DState d :=
  finishStep nodes eps s (accumulate s.emb s.temp es)

/-- The state entering the loop: initial vectors `v0`, the all-zero buffer of
line 21, and the empty loss list of line 23. -/
def initState {d : ℕ} (v0 : ℕ → Vec d) : DState d :=
  { emb := v0, temp := fun _ => 0, losses := [] }

/-- The state after `n` iterations of the diffusion loop. -/
def run {d : ℕ} (nodes : List ℕ) (es : EdgeDict) (eps : ℝ) (v0 : ℕ → Vec d) :
    ℕ → DState d
  | 0 => initState v0
  | n + 1 => step nodes es eps (run nodes es eps v0 n)

/-- The net contribution one stored pair `p` makes to the buffer entry of
node `u`: `emb p.2` if `u` is the stored first endpoint, plus `emb p.1` if
`u` is the stored second endpoint. -/
def contrib {d : ℕ} (emb : ℕ → Vec d) (p : ℕ × ℕ) (u : ℕ) : Vec d :=
  (if p.1 = u then emb p.2 else 0) + (if p.2 = u then emb p.1 else 0)

/-- Total contribution of a list of stored pairs to the buffer entry of `u`. -/
def contribSum {d : ℕ} (emb : ℕ → Vec d) (ps : List (ℕ × ℕ)) (u : ℕ) : Vec d :=
  (ps.map fun p => contrib emb p u).sum

theorem accumPair_apply {d : ℕ} (emb t : ℕ → Vec d) (p : ℕ × ℕ) (u : ℕ) :
    accumPair emb t p u = t u + contrib emb p u := by
  unfold accumPair contrib
  by_cases h2 : p.2 = u
  · subst h2
    by_cases h1 : p.1 = p.2
    · simp [Function.update, h1, add_assoc]
    · simp [Function.update_apply, h1, Ne.symm h1, add_assoc]
  · by_cases h1 : p.1 = u
    · subst h1
      simp [Function.update_apply, h2, Ne.symm h2]
    · simp [Function.update_apply, h1, h2, Ne.symm h1, Ne.symm h2]

theorem foldl_accumPair_apply {d : ℕ} (emb : ℕ → Vec d) (ps : List (ℕ × ℕ)) :
    ∀ t : ℕ → Vec d, ∀ u : ℕ,
      ps.foldl (accumPair emb) t u = t u + contribSum emb ps u := by
  induction ps with
  | nil => intro t u; simp [contribSum]
  | cons p ps ih =>
      intro t u
      have := ih (accumPair emb t p) u
      simp only [List.foldl_cons]
      rw [this, accumPair_apply]
      simp [contribSum, add_assoc]

/-- The accumulation pass adds, on top of the incoming buffer, exactly the
sum of the stored pairs' contributions. -/
theorem accumulate_apply {d : ℕ} (emb t : ℕ → Vec d) (es : EdgeDict) (u : ℕ) :
    accumulate emb t es u = t u + contribSum emb (edgePairs es) u :=
  foldl_accumPair_apply emb (edgePairs es) t u

theorem normSq_nonneg {d : ℕ} (v : Vec d) : 0 ≤ normSq v :=
  Finset.sum_nonneg fun _ _ => sq_nonneg _

theorem norm2_nonneg {d : ℕ} (v : Vec d) : 0 ≤ norm2 v := Real.sqrt_nonneg _

theorem normSq_zero {d : ℕ} : normSq (0 : Vec d) = 0 := by simp [normSq]

theorem norm2_zero {d : ℕ} : norm2 (0 : Vec d) = 0 := by
  unfold norm2
  rw [normSq_zero, Real.sqrt_zero]

theorem normalizeEps_zero {d : ℕ} (eps : ℝ) :
    normalizeEps eps (0 : Vec d) = 0 := by
  funext i
  simp [normalizeEps]

theorem norm2_normalizeEps {d : ℕ} {eps : ℝ} (heps : 0 < eps) (v : Vec d) :
    norm2 (normalizeEps eps v) = norm2 v / (norm2 v + eps) := by
  have hq : 0 < norm2 v + eps := add_pos_of_nonneg_of_pos (norm2_nonneg v) heps
  have hsq : normSq (normalizeEps eps v)
      = normSq v * ((norm2 v + eps)⁻¹) ^ 2 := by
    unfold normSq normalizeEps
    simp only [div_eq_mul_inv, mul_pow]
    rw [← Finset.sum_mul]
  have key : norm2 (normalizeEps eps v)
      = Real.sqrt (normSq v) * (norm2 v + eps)⁻¹ := by
    show Real.sqrt (normSq (normalizeEps eps v)) = _
    rw [hsq, Real.sqrt_mul (normSq_nonneg v),
      Real.sqrt_sq (le_of_lt (inv_pos.mpr hq))]
  rw [key, div_eq_mul_inv]
  rfl

/-- A concrete all-ones initial embedding dictionary in dimension 1, used by
the concrete instances below. -/
def onesVec1 : ℕ → Vec 1 := fun _ _ => 1

/-- C1, counterexample.  The claim says the accumulation buffer is reset to
the zero vector at the start of every iteration.  On the graph with nodes
`{0, 1}`, the single stored edge `0 ↦ [1]` and all-ones initial vectors, the
buffer entering iteration 2 (that is, after one iteration) is not the zero
vector at node 0: the source creates `Node_ID_2_Embedding_Temp` once, before
the loop, and never re-zeroes it. -/
theorem temp_not_reset_cex :
    (run [0, 1] [(0, [1])] EPSILON onesVec1 1).temp 0 ≠ 0 := by
  have e1 : (run [0, 1] [(0, [1])] EPSILON onesVec1 1).temp 0
      = (fun _ : ℕ => (0 : Vec 1)) 0
          + contribSum onesVec1 (edgePairs [(0, [1])]) 0 :=
    accumulate_apply onesVec1 (fun _ => 0) [(0, [1])] 0
  have e2 : contribSum onesVec1 (edgePairs [(0, [1])]) 0 = fun _ => 1 := by
    funext i
    simp [contribSum, edgePairs, contrib, onesVec1]
  intro h
  rw [e2] at e1
  have h0 := congrFun (e1.symm.trans h) (0 : Fin 1)
  simp at h0

/-- C1, amended.  The accumulation buffer is zeroed once, at initialization
(before the first iteration), and is never reset afterwards: the buffer after
`n + 1` iterations equals the buffer after `n` iterations plus the neighbor
contributions of iteration `n + 1`, so an iteration's new vectors depend on
the contributions accumulated over all iterations so far, not only on the
current iteration's. -/
theorem buffer_accumulates_across_iterations {d : ℕ} (nodes : List ℕ)
    (es : EdgeDict) (eps : ℝ) (v0 : ℕ → Vec d) (n : ℕ) (u : ℕ) :
    (run nodes es eps v0 0).temp u = 0 ∧
      (run nodes es eps v0 (n + 1)).temp u
        = (run nodes es eps v0 n).temp u
            + contribSum (run nodes es eps v0 n).emb (edgePairs es) u := by
  constructor
  · rfl
  · exact accumulate_apply _ _ _ _

/-- C2, counterexample.  The claim says every node's vector has unit L2 norm
after every diffusion-iteration update.  On the one-node graph with no edges
(node 0 isolated), after the first update node 0's vector has L2 norm 0 — it
is the zero vector, not a unit vector, for any tolerance below 1. -/
theorem updated_vector_norm_zero_cex :
    norm2 ((run [0] ([] : EdgeDict) EPSILON onesVec1 1).emb 0) = 0 := by
  have h : (run [0] ([] : EdgeDict) EPSILON onesVec1 1).emb 0 = 0 := by
    have e : (run [0] ([] : EdgeDict) EPSILON onesVec1 1).emb 0
        = normalizeEps EPSILON
            (accumulate onesVec1 (fun _ => 0) ([] : EdgeDict) 0) := rfl
    have hacc : accumulate onesVec1 (fun _ : ℕ => (0 : Vec 1))
        ([] : EdgeDict) 0 = 0 := rfl
    rw [e, hacc, normalizeEps_zero]
  rw [h, norm2_zero]

/-- C2, amended.  After each update, a node's new vector is
`buffer / (‖buffer‖₂ + ε)`, whose L2 norm is `‖buffer‖₂ / (‖buffer‖₂ + ε)`:
strictly below 1 (approaching 1 when the buffer is large against ε), and 0
exactly when the accumulated buffer is zero — so unit norm holds only
approximately and only for nodes with nonzero accumulation, never exactly. -/
theorem updated_vector_norm_formula {d : ℕ} (nodes : List ℕ) (es : EdgeDict)
    {eps : ℝ} (heps : 0 < eps) (s : DState d) (u : ℕ) :
    norm2 ((step nodes es eps s).emb u)
        = norm2 (accumulate s.emb s.temp es u)
            / (norm2 (accumulate s.emb s.temp es u) + eps) ∧
      norm2 ((step nodes es eps s).emb u) < 1 := by
  have h1 : (step nodes es eps s).emb u
      = normalizeEps eps (accumulate s.emb s.temp es u) := rfl
  rw [h1, norm2_normalizeEps heps]
  refine ⟨rfl, ?_⟩
  have hq : 0 < norm2 (accumulate s.emb s.temp es u) + eps :=
    add_pos_of_nonneg_of_pos (norm2_nonneg _) heps
  exact (div_lt_one hq).mpr (lt_add_of_pos_right _ heps)

theorem updated_vector_norm_formula_witness :
    0 < EPSILON ∧
      (norm2 ((step [0] ([] : EdgeDict) EPSILON (initState onesVec1)).emb 0)
          = norm2 (accumulate (initState onesVec1).emb (initState onesVec1).temp
                ([] : EdgeDict) 0)
              / (norm2 (accumulate (initState onesVec1).emb
                  (initState onesVec1).temp ([] : EdgeDict) 0) + EPSILON) ∧
        norm2 ((step [0] ([] : EdgeDict) EPSILON (initState onesVec1)).emb 0)
          < 1) := by
  have heps : 0 < EPSILON := by norm_num [EPSILON]
  exact ⟨heps, updated_vector_norm_formula [0] [] heps (initState onesVec1) 0⟩

/-- C3, counterexample.  The claim says a zero-norm sample is resampled, so
the rescaling never divides by zero.  The source has no such guard: on the
all-zero sample (a point of the sample space `[-1, 1]^d`), the divisor
`np.linalg.norm(Embedding)` is exactly 0, the division is performed anyway,
and the result is not a unit vector (its squared norm is 0, not 1). -/
theorem init_zero_sample_cex :
    norm2 (0 : Vec 2) = 0 ∧ initEmb (0 : Vec 2) = 0 ∧
      normSq (initEmb (0 : Vec 2)) ≠ 1 := by
  have hz : initEmb (0 : Vec 2) = 0 := by
    funext i
    simp [initEmb]
  refine ⟨norm2_zero, hz, ?_⟩
  rw [hz, normSq_zero]
  norm_num

/-- C3, amended.  The initializer rescales an arbitrary sample by its L2 norm
with no zero-norm guard; for every sample of nonzero norm the rescaled vector
has L2 norm exactly 1 (well within the 1e-9 tolerance), while a zero-norm
sample is not resampled — its rescaling divides by zero (see the
counterexample). -/
theorem init_unit_norm_of_nonzero {d : ℕ} (s : Vec d) (hs : norm2 s ≠ 0) :
    norm2 (initEmb s) = 1 := by
  have hnn := normSq_nonneg s
  have hsq : normSq (initEmb s) = normSq s * ((norm2 s)⁻¹) ^ 2 := by
    unfold normSq initEmb
    simp only [div_eq_mul_inv, mul_pow]
    rw [← Finset.sum_mul]
  have hns : normSq s = norm2 s ^ 2 := (Real.sq_sqrt hnn).symm
  show Real.sqrt (normSq (initEmb s)) = 1
  rw [hsq, hns, ← mul_pow, mul_inv_cancel₀ hs, one_pow, Real.sqrt_one]

theorem init_unit_norm_witness :
    norm2 (fun _ : Fin 1 => (1 : ℝ)) ≠ 0 ∧
      norm2 (initEmb (fun _ : Fin 1 => (1 : ℝ))) = 1 := by
  have h1 : normSq (fun _ : Fin 1 => (1 : ℝ)) = 1 := by
    simp [normSq]
  have hs1 : norm2 (fun _ : Fin 1 => (1 : ℝ)) = 1 := by
    unfold norm2
    rw [h1, Real.sqrt_one]
  have hs : norm2 (fun _ : Fin 1 => (1 : ℝ)) ≠ 0 := by
    rw [hs1]
    norm_num
  exact ⟨hs, init_unit_norm_of_nonzero _ hs⟩

theorem contribSum_eq_zero {d : ℕ} (emb : ℕ → Vec d) (ps : List (ℕ × ℕ))
    {u : ℕ} (hu : ∀ p ∈ ps, p.1 ≠ u ∧ p.2 ≠ u) : contribSum emb ps u = 0 := by
  unfold contribSum
  apply List.sum_eq_zero
  intro x hx
  rcases List.mem_map.mp hx with ⟨p, hp, rfl⟩
  simp [contrib, (hu p hp).1, (hu p hp).2]

theorem run_temp_isolated {d : ℕ} (nodes : List ℕ) (es : EdgeDict) (eps : ℝ)
    (v0 : ℕ → Vec d) {u : ℕ}
    (hu : ∀ p ∈ edgePairs es, p.1 ≠ u ∧ p.2 ≠ u) :
    ∀ n, (run nodes es eps v0 n).temp u = 0 := by
  intro n
  induction n with
  | zero => rfl
  | succ m ih =>
      have h : (run nodes es eps v0 (m + 1)).temp u
          = (run nodes es eps v0 m).temp u
              + contribSum (run nodes es eps v0 m).emb (edgePairs es) u :=
        accumulate_apply _ _ _ _
      rw [h, ih, contribSum_eq_zero _ _ hu, add_zero]

/-- C4.  A node `u` incident to no stored edge keeps a zero accumulation
buffer forever, so after every iteration `n ≥ 1` its embedding vector is
exactly the zero vector (`0 / (0 + ε) = 0`), for any initial vectors and any
`ε > 0`. -/
theorem isolated_node_decays_to_zero {d : ℕ} (nodes : List ℕ) (es : EdgeDict)
    {eps : ℝ} (v0 : ℕ → Vec d) {u : ℕ}
    (hu : ∀ p ∈ edgePairs es, p.1 ≠ u ∧ p.2 ≠ u) (heps : 0 < eps) :
    ∀ n, 1 ≤ n → (run nodes es eps v0 n).emb u = 0 ∧
      (run nodes es eps v0 n).temp u = 0 := by
  intro n hn
  match n, hn with
  | m + 1, _ =>
    have htemp := run_temp_isolated nodes es eps v0 hu (m + 1)
    refine ⟨?_, htemp⟩
    have he : (run nodes es eps v0 (m + 1)).emb u
        = normalizeEps eps ((run nodes es eps v0 (m + 1)).temp u) := rfl
    rw [he, htemp, normalizeEps_zero]

theorem isolated_node_decays_to_zero_witness :
    ((∀ p ∈ edgePairs [(0, [1])], p.1 ≠ 2 ∧ p.2 ≠ 2) ∧ 0 < EPSILON ∧
        (1 : ℕ) ≤ 1) ∧
      ((run [0, 1, 2] [(0, [1])] EPSILON onesVec1 1).emb 2 = 0 ∧
        (run [0, 1, 2] [(0, [1])] EPSILON onesVec1 1).temp 2 = 0) := by
  have hu : ∀ p ∈ edgePairs [(0, [1])], p.1 ≠ 2 ∧ p.2 ≠ 2 := by decide
  have heps : 0 < EPSILON := by norm_num [EPSILON]
  exact ⟨⟨hu, heps, le_refl 1⟩,
    isolated_node_decays_to_zero [0, 1, 2] [(0, [1])] onesVec1 hu heps 1
      (le_refl 1)⟩

theorem accumulate_of_no_pairs {d : ℕ} (emb t : ℕ → Vec d) {es : EdgeDict}
    (hes : edgePairs es = []) : accumulate emb t es = t := by
  unfold accumulate
  rw [hes]
  rfl

theorem listMean_nonneg {xs : List ℝ} (h : ∀ x ∈ xs, 0 ≤ x) :
    0 ≤ listMean xs :=
  div_nonneg (List.sum_nonneg h) (Nat.cast_nonneg _)

theorem listMean_pos {xs : List ℝ} (h : ∀ x ∈ xs, 0 < x) (hne : xs ≠ []) :
    0 < listMean xs := by
  unfold listMean
  apply div_pos (List.sum_pos xs h hne)
  exact_mod_cast List.length_pos.mpr hne

theorem listMean_of_zeros {xs : List ℝ} (h : ∀ x ∈ xs, x = 0) :
    listMean xs = 0 := by
  unfold listMean
  rw [List.sum_eq_zero h, zero_div]

theorem meanAbsDiff_nonneg {d : ℕ} (v w : Vec d) : 0 ≤ meanAbsDiff v w :=
  div_nonneg (Finset.sum_nonneg fun _ _ => abs_nonneg _) (Nat.cast_nonneg _)

theorem meanAbsDiff_self_zero {d : ℕ} (v : Vec d) : meanAbsDiff v v = 0 := by
  unfold meanAbsDiff
  simp

theorem meanAbsDiff_pos {d : ℕ} (hd : 0 < d) {v : Vec d} (hv : v ≠ 0) :
    0 < meanAbsDiff v 0 := by
  unfold meanAbsDiff
  rcases Function.ne_iff.mp hv with ⟨i0, hi0⟩
  apply div_pos
  · apply Finset.sum_pos' (fun i _ => abs_nonneg _)
    refine ⟨i0, Finset.mem_univ _, ?_⟩
    have : v i0 - (0 : Vec d) i0 = v i0 := by simp
    rw [this]
    exact abs_pos.mpr fun hz => hi0 (by simp [hz])
  · exact_mod_cast hd

theorem lossOf_nonneg {d : ℕ} (nodes : List ℕ) (vOld vNew : ℕ → Vec d) :
    0 ≤ lossOf nodes vOld vNew := by
  apply listMean_nonneg
  intro x hx
  rcases List.mem_map.mp hx with ⟨u, _, rfl⟩
  exact meanAbsDiff_nonneg _ _

theorem step_mk {d : ℕ} (nodes : List ℕ) (es : EdgeDict) (eps : ℝ)
    (e t : ℕ → Vec d) (L : List ℝ) :
    step nodes es eps ⟨e, t, L⟩
      = ⟨fun u => normalizeEps eps (accumulate e t es u), accumulate e t es,
          L ++ [lossOf nodes e
            (fun u => normalizeEps eps (accumulate e t es u))]⟩ := rfl

theorem run_zero_edges_closed {d : ℕ} (nodes : List ℕ) {es : EdgeDict}
    (eps : ℝ) (v0 : ℕ → Vec d) (hes : edgePairs es = []) (k : ℕ) :
    run nodes es eps v0 (k + 1)
      = ⟨fun _ => 0, fun _ => 0,
          [lossOf nodes v0 (fun _ => 0)] ++ List.replicate k 0⟩ := by
  have hemb : ∀ t : ℕ → Vec d, t = (fun _ => 0) →
      (fun u : ℕ => normalizeEps eps (t u)) = fun _ : ℕ => (0 : Vec d) := by
    rintro t rfl
    exact funext fun _ => normalizeEps_zero eps
  induction k with
  | zero =>
      show step nodes es eps ⟨v0, fun _ => 0, []⟩ = _
      rw [step_mk, accumulate_of_no_pairs _ _ hes]
      simp only [DState.mk.injEq]
      exact ⟨hemb _ rfl, trivial, by rw [hemb _ rfl]; rfl⟩
  | succ m ih =>
      show step nodes es eps (run nodes es eps v0 (m + 1)) = _
      rw [ih, step_mk, accumulate_of_no_pairs _ _ hes]
      simp only [DState.mk.injEq]
      refine ⟨hemb _ rfl, trivial, ?_⟩
      rw [hemb _ rfl]
      have hloss : lossOf nodes (fun _ : ℕ => (0 : Vec d))
          (fun _ : ℕ => (0 : Vec d)) = 0 := by
        apply listMean_of_zeros
        intro x hx
        rcases List.mem_map.mp hx with ⟨u, _, rfl⟩
        exact meanAbsDiff_self_zero _
      rw [hloss]
      simp [List.replicate_succ']

/-- C5.  On a graph with a non-empty node list and no stored edges, the loss
trajectory after `k + 1` iterations is a strictly positive first entry
(iteration 1 maps the nonzero initial vectors to zero vectors) followed by
`k` entries that are exactly `0` (nothing changes afterwards). -/
theorem zero_edges_loss_trajectory {d : ℕ} (nodes : List ℕ) (es : EdgeDict)
    (eps : ℝ) (v0 : ℕ → Vec d) (hes : edgePairs es = []) (hn0 : nodes ≠ [])
    (hd : 0 < d) (hv0 : ∀ u ∈ nodes, v0 u ≠ 0) (k : ℕ) :
    0 < lossOf nodes v0 (fun _ => 0) ∧
      (run nodes es eps v0 (k + 1)).losses
        = lossOf nodes v0 (fun _ => 0) :: List.replicate k 0 := by
  constructor
  · apply listMean_pos
    · intro x hx
      rcases List.mem_map.mp hx with ⟨u, hu, rfl⟩
      exact meanAbsDiff_pos hd (hv0 u hu)
    · intro hmap
      exact hn0 (List.map_eq_nil_iff.mp hmap)
  · rw [run_zero_edges_closed nodes eps v0 hes k]
    rfl

theorem zero_edges_loss_trajectory_witness :
    (edgePairs ([] : EdgeDict) = [] ∧ ([0] : List ℕ) ≠ [] ∧ (0 : ℕ) < 1 ∧
        (∀ u ∈ ([0] : List ℕ), onesVec1 u ≠ 0)) ∧
      (0 < lossOf [0] onesVec1 (fun _ => 0) ∧
        (run [0] ([] : EdgeDict) EPSILON onesVec1 2).losses
          = lossOf [0] onesVec1 (fun _ => 0) :: List.replicate 1 0) := by
  have hv0 : ∀ u ∈ ([0] : List ℕ), onesVec1 u ≠ 0 := by
    intro u _ hcontra
    have h1 := congrFun hcontra (0 : Fin 1)
    simp [onesVec1] at h1
  refine ⟨⟨rfl, by decide, by decide, hv0⟩, ?_⟩
  exact zero_edges_loss_trajectory [0] [] EPSILON onesVec1 rfl (by decide)
    (by decide) hv0 1

theorem step_losses {d : ℕ} (nodes : List ℕ) (es : EdgeDict) (eps : ℝ)
    (s : DState d) :
    (step nodes es eps s).losses
      = s.losses ++ [lossOf nodes s.emb (step nodes es eps s).emb] := rfl

theorem run_losses_length {d : ℕ} (nodes : List ℕ) (es : EdgeDict) (eps : ℝ)
    (v0 : ℕ → Vec d) : ∀ n, (run nodes es eps v0 n).losses.length = n := by
  intro n
  induction n with
  | zero => rfl
  | succ m ih =>
      show (step nodes es eps (run nodes es eps v0 m)).losses.length = m + 1
      rw [step_losses, List.length_append, ih]
      rfl

theorem run_losses_nonneg {d : ℕ} (nodes : List ℕ) (es : EdgeDict) (eps : ℝ)
    (v0 : ℕ → Vec d) : ∀ n, ∀ x ∈ (run nodes es eps v0 n).losses, 0 ≤ x := by
  intro n
  induction n with
  | zero => intro x hx; cases hx
  | succ m ih =>
      intro x hx
      have hx : x ∈ (step nodes es eps (run nodes es eps v0 m)).losses := hx
      rw [step_losses] at hx
      rcases List.mem_append.mp hx with h | h
      · exact ih x h
      · rcases List.mem_singleton.mp h with rfl
        exact lossOf_nonneg _ _ _

/-- C7.  Over a non-empty node list (and positive dimension, so that the
numpy means are means of non-empty data), the loss trajectory of a full run
has length exactly `ITERATION_COUNT = 100` — one appended entry per
iteration, no early exit — and every entry is non-negative. -/
theorem loss_trajectory_length_nonneg {d : ℕ} (nodes : List ℕ)
    (es : EdgeDict) (eps : ℝ) (v0 : ℕ → Vec d) (hn0 : nodes ≠ [])
    (hd : 0 < d) :
    (run nodes es eps v0 ITERATION_COUNT).losses.length = ITERATION_COUNT ∧
      ∀ x ∈ (run nodes es eps v0 ITERATION_COUNT).losses, 0 ≤ x :=
  ⟨run_losses_length nodes es eps v0 ITERATION_COUNT,
    run_losses_nonneg nodes es eps v0 ITERATION_COUNT⟩

theorem loss_trajectory_length_nonneg_witness :
    (([0] : List ℕ) ≠ [] ∧ (0 : ℕ) < 1) ∧
      ((run [0] ([] : EdgeDict) EPSILON onesVec1 ITERATION_COUNT).losses.length
          = ITERATION_COUNT ∧
        ∀ x ∈ (run [0] ([] : EdgeDict) EPSILON onesVec1
            ITERATION_COUNT).losses, 0 ≤ x) :=
  ⟨⟨by decide, by decide⟩,
    loss_trajectory_length_nonneg [0] [] EPSILON onesVec1 (by decide)
      (by decide)⟩

theorem contrib_swap {d : ℕ} (emb : ℕ → Vec d) (a b u : ℕ) :
    contrib emb (a, b) u = contrib emb (b, a) u := add_comm _ _

/-- `contrib`, descended to unordered pairs (it is symmetric in the two
stored endpoints, by `contrib_swap`). -/
def contribS {d : ℕ} (emb : ℕ → Vec d) (u : ℕ) : Sym2 ℕ → Vec d :=
  Sym2.lift ⟨fun a b => contrib emb (a, b) u, fun a b => contrib_swap emb a b u⟩

theorem contrib_eq_contribS {d : ℕ} (emb : ℕ → Vec d) (u : ℕ) (p : ℕ × ℕ) :
    contrib emb p u = contribS emb u (Sym2.mk p) := by
  rcases p with ⟨a, b⟩
  unfold contribS
  rw [Sym2.lift_mk]

theorem contribSum_multiset {d : ℕ} (emb : ℕ → Vec d) (ps : List (ℕ × ℕ))
    (u : ℕ) :
    contribSum emb ps u
      = ((ps.map Sym2.mk : Multiset (Sym2 ℕ)).map (contribS emb u)).sum := by
  unfold contribSum
  rw [Multiset.map_coe, Multiset.sum_coe, List.map_map]
  simp only [contrib_eq_contribS, Function.comp]
  rfl

/-- C6.  The accumulation of lines 27-31 adds, for every stored pair
`{A, B}`, `vector(B)` to `buffer(A)` and `vector(A)` to `buffer(B)`
(see `accumulate_apply`/`contrib`), and the total effect depends only on the
multiset of *unordered* pairs: two edge dictionaries whose stored pairs are
the same unordered pairs (in any storage orientation and order) produce the
same accumulation and the same run — swapping which endpoint an edge is
stored under leaves all resulting vectors unchanged. -/
theorem edge_storage_symmetry {d : ℕ} (nodes : List ℕ) (es₁ es₂ : EdgeDict)
    (eps : ℝ) (v0 : ℕ → Vec d)
    (h : ((edgePairs es₁).map Sym2.mk : Multiset (Sym2 ℕ))
        = ((edgePairs es₂).map Sym2.mk : Multiset (Sym2 ℕ))) :
    (∀ emb t : ℕ → Vec d, accumulate emb t es₁ = accumulate emb t es₂) ∧
      ∀ n, run nodes es₁ eps v0 n = run nodes es₂ eps v0 n := by
  have hacc : ∀ emb t : ℕ → Vec d,
      accumulate emb t es₁ = accumulate emb t es₂ := by
    intro emb t
    funext u
    rw [accumulate_apply, accumulate_apply, contribSum_multiset,
      contribSum_multiset, h]
  refine ⟨hacc, ?_⟩
  intro n
  induction n with
  | zero => rfl
  | succ m ih =>
      show step nodes es₁ eps (run nodes es₁ eps v0 m)
          = step nodes es₂ eps (run nodes es₂ eps v0 m)
      rw [ih]
      unfold step
      rw [hacc]

theorem edge_storage_symmetry_witness :
    (((edgePairs [(1, [2])]).map Sym2.mk : Multiset (Sym2 ℕ))
        = ((edgePairs [(2, [1])]).map Sym2.mk : Multiset (Sym2 ℕ))) ∧
      accumulate onesVec1 (fun _ => 0) [(1, [2])]
        = accumulate onesVec1 (fun _ => 0) [(2, [1])] ∧
      run [1, 2] [(1, [2])] EPSILON onesVec1 1
        = run [1, 2] [(2, [1])] EPSILON onesVec1 1 := by
  have h : ((edgePairs [(1, [2])]).map Sym2.mk : Multiset (Sym2 ℕ))
      = ((edgePairs [(2, [1])]).map Sym2.mk : Multiset (Sym2 ℕ)) := by decide
  exact ⟨h,
    (edge_storage_symmetry [1, 2] [(1, [2])] [(2, [1])] EPSILON onesVec1 h).1
      onesVec1 (fun _ => 0),
    (edge_storage_symmetry [1, 2] [(1, [2])] [(2, [1])] EPSILON onesVec1 h).2
      1⟩

/-- Checked dictionary lookup: Python's `dict[k]` raises `KeyError` when `k`
is not among the dictionary's keys.  `keys` is the common key list of the
embedding and buffer dictionaries (both are built over the node set's ids,
lines 12-21 of `src/Embedding.py`). -/
def lookupD {d : ℕ} (keys : List ℕ) (f : ℕ → Vec d) (k : ℕ) :
    Except Unit (Vec d) :=
  if k ∈ keys then .ok (f k) else .error ()

/-- Key-checked version of lines 30-31: each `+=` statement reads a buffer
entry and the partner node's embedding (raising `KeyError` on a missing key)
before writing the updated entry back. -/
def accumPairE {d : ℕ} (keys : List ℕ) (emb : ℕ → Vec d) (t : ℕ → Vec d)
    (p : ℕ × ℕ) : Except Unit (ℕ → Vec d) := do
  let ta ← lookupD keys t p.1
  let vb ← lookupD keys emb p.2
  let t1 := Function.update t p.1 (ta + vb)
  let tb ← lookupD keys t1 p.2
  let va ← lookupD keys emb p.1
  pure (Function.update t1 p.2 (tb + va))

/-- Key-checked accumulation pass (the nested loops of lines 27-31). -/
def accumulateE {d : ℕ} (keys : List ℕ) (emb t : ℕ → Vec d) (es : EdgeDict) :
    Except Unit (ℕ → Vec d) :=
  (edgePairs es).foldlM (accumPairE keys emb) t

/-- Key-checked iteration: the accumulation may raise, the normalization and
loss computation (dict comprehensions over the dictionaries' own items)
cannot. -/
def stepE {d : ℕ} (nodes : List ℕ) (es : EdgeDict) (eps : ℝ) (s : DState d) :
    Except Unit (DState d) := do
  let t ← accumulateE nodes s.emb s.temp es
  pure (finishStep nodes eps s t)

/-- Key-checked run: an exception in any iteration aborts the whole loop. -/
def runE {d : ℕ} (nodes : List ℕ) (es : EdgeDict) (eps : ℝ) (v0 : ℕ → Vec d) :
    ℕ → Except Unit (DState d)
  | 0 => .ok (initState v0)
  | n + 1 => (runE nodes es eps v0 n).bind (stepE nodes es eps)

/-- The export of `Node_Embeddings.json` (lines 44-47 of `src/Embedding.py`):
each node id mapped to the ordered list of its `d` floats. -/
def toSave {d : ℕ} (nodes : List ℕ) (emb : ℕ → Vec d) : List (ℕ × List ℝ) :=
  nodes.map fun u => (u, List.ofFn (emb u))

theorem accumPairE_ok {d : ℕ} {keys : List ℕ} (emb t : ℕ → Vec d)
    {p : ℕ × ℕ} (h1 : p.1 ∈ keys) (h2 : p.2 ∈ keys) :
    accumPairE keys emb t p = .ok (accumPair emb t p) := by
  unfold accumPairE lookupD accumPair
  simp only [if_pos h1, if_pos h2]
  rfl

theorem accumPairE_error {d : ℕ} {keys : List ℕ} (emb t : ℕ → Vec d)
    {p : ℕ × ℕ} (h : p.1 ∉ keys ∨ p.2 ∉ keys) :
    accumPairE keys emb t p = .error () := by
  unfold accumPairE lookupD
  by_cases h1 : p.1 ∈ keys
  · have h2 : p.2 ∉ keys := h.resolve_left fun hc => hc h1
    simp only [if_pos h1, if_neg h2]
    rfl
  · rw [if_neg h1]
    rfl

theorem foldlM_accumPairE_error {d : ℕ} (keys : List ℕ) (emb : ℕ → Vec d) :
    ∀ (ps : List (ℕ × ℕ)) (t : ℕ → Vec d),
      (∃ p ∈ ps, p.1 ∉ keys ∨ p.2 ∉ keys) →
      ps.foldlM (accumPairE keys emb) t = .error () := by
  intro ps
  induction ps with
  | nil =>
      rintro t ⟨p, hp, _⟩
      cases hp
  | cons q ps ih =>
      rintro t ⟨p, hp, hbad⟩
      rw [List.foldlM_cons]
      by_cases hq : q.1 ∈ keys ∧ q.2 ∈ keys
      · rw [accumPairE_ok emb t hq.1 hq.2]
        rcases List.mem_cons.mp hp with rfl | hp2
        · exact absurd hbad (by simp [hq.1, hq.2])
        · exact ih _ ⟨p, hp2, hbad⟩
      · rw [accumPairE_error emb t (not_and_or.mp hq)]
        rfl

theorem foldlM_accumPairE_ok {d : ℕ} (keys : List ℕ) (emb : ℕ → Vec d) :
    ∀ (ps : List (ℕ × ℕ)) (t : ℕ → Vec d),
      (∀ p ∈ ps, p.1 ∈ keys ∧ p.2 ∈ keys) →
      ps.foldlM (accumPairE keys emb) t = .ok (ps.foldl (accumPair emb) t) := by
  intro ps
  induction ps with
  | nil => intro t _; rfl
  | cons q ps ih =>
      intro t h
      rw [List.foldlM_cons, accumPairE_ok emb t (h q (List.mem_cons_self q ps)).1
        (h q (List.mem_cons_self q ps)).2]
      have := ih (accumPair emb t q) fun p hp => h p (List.mem_cons_of_mem q hp)
      rw [List.foldl_cons]
      exact this

/-- Faithfulness of the total-function model: when every stored edge endpoint
is a key of the dictionaries, the key-checked run raises nothing and agrees
with `run`. -/
theorem runE_eq_ok_run {d : ℕ} (nodes : List ℕ) (es : EdgeDict) (eps : ℝ)
    (v0 : ℕ → Vec d)
    (h : ∀ p ∈ edgePairs es, p.1 ∈ nodes ∧ p.2 ∈ nodes) :
    ∀ n, runE nodes es eps v0 n = .ok (run nodes es eps v0 n) := by
  intro n
  induction n with
  | zero => rfl
  | succ m ih =>
      show (runE nodes es eps v0 m).bind (stepE nodes es eps) = _
      rw [ih]
      show stepE nodes es eps (run nodes es eps v0 m) = _
      unfold stepE accumulateE
      rw [foldlM_accumPairE_ok nodes _ (edgePairs es) _ h]
      rfl

/-- C8.  If some stored edge references an id that is not in the node set,
the very first accumulation pass raises a key-not-found error (`stepE` on the
initial state is `error`), every run of at least one iteration is `error`,
and in particular no embedding export is ever produced from it. -/
theorem missing_node_fails_fast {d : ℕ} (nodes : List ℕ) (es : EdgeDict)
    (eps : ℝ) (v0 : ℕ → Vec d) {p : ℕ × ℕ} (hp : p ∈ edgePairs es)
    (hbad : p.1 ∉ nodes ∨ p.2 ∉ nodes) :
    stepE nodes es eps (initState v0) = .error () ∧
      ∀ n, (runE nodes es eps v0 (n + 1)).map (fun s => toSave nodes s.emb)
          = .error () := by
  have hstep : ∀ s : DState d, stepE nodes es eps s = .error () := by
    intro s
    unfold stepE accumulateE
    rw [foldlM_accumPairE_error nodes _ (edgePairs es) _ ⟨p, hp, hbad⟩]
    rfl
  have hrun : ∀ n, runE nodes es eps v0 (n + 1) = .error () := by
    intro n
    induction n with
    | zero => exact hstep (initState v0)
    | succ m ih =>
        show (runE nodes es eps v0 (m + 1)).bind (stepE nodes es eps) = _
        rw [ih]
        rfl
  exact ⟨hstep _, fun n => by rw [hrun n]; rfl⟩

theorem missing_node_fails_fast_witness :
    ((1, 2) ∈ edgePairs [(1, [2])] ∧
        ((1, 2).1 ∉ ([1] : List ℕ) ∨ (1, 2).2 ∉ ([1] : List ℕ))) ∧
      (stepE [1] [(1, [2])] EPSILON (initState onesVec1) = .error () ∧
        (runE [1] [(1, [2])] EPSILON onesVec1 1).map
            (fun s => toSave [1] s.emb)
          = .error ()) := by
  have hp : (1, 2) ∈ edgePairs [(1, [2])] := by decide
  have hbad : (1, 2).1 ∉ ([1] : List ℕ) ∨ (1, 2).2 ∉ ([1] : List ℕ) := by
    decide
  have h := missing_node_fails_fast [1] [(1, [2])] EPSILON onesVec1 hp hbad
  exact ⟨⟨hp, hbad⟩, h.1, h.2 0⟩

/-- The Euclidean length of the projected segment of one stored edge
(`np.linalg.norm(np.subtract(Embedding_2D_A, Embedding_2D_B), ord=2)`, lines
80 and 92 of `src/Embedding.py`), over the node→2D-point map produced by the
external projection. -/
def len2D (pts : ℕ → ℝ × ℝ) (p : ℕ × ℕ) : ℝ :=
  Real.sqrt
    (((pts p.1).1 - (pts p.2).1) ^ 2 + ((pts p.1).2 - (pts p.2).2) ^ 2)

/-- `Edge_Lengths_2D` (lines 72-81): the 2D lengths of all stored edges, in
visit order. -/
def edgeLengths (pts : ℕ → ℝ × ℝ) (es : EdgeDict) : List ℝ :=
  (edgePairs es).map (len2D pts)

/-- Insertion into an ascending-sorted list. -/
def insertLe (a : ℝ) : List ℝ → List ℝ
  | [] => [a]
  | b :: bs => if a ≤ b then a :: b :: bs else b :: insertLe a bs

/-- Ascending insertion sort — the sorted order `np.percentile` computes
over. -/
def sortLe (xs : List ℝ) : List ℝ := xs.foldr insertLe []

/-- `np.percentile(a, q)` with numpy's default linear interpolation: with the
data sorted ascending and `pos = (q/100)·(n-1)`, the value is
`a[⌊pos⌋] + (pos - ⌊pos⌋)·(a[⌊pos⌋+1] - a[⌊pos⌋])` (the second index read
only when the fractional part is nonzero). -/
def percentile (q : ℝ) (xs : List ℝ) : ℝ :=
  let srt := sortLe xs
  let pos := q / 100 * ((xs.length : ℝ) - 1)
  let i := ⌊pos⌋₊
  let lo := srt.getD i 0
  let hi := srt.getD (i + 1) lo
  lo + (pos - (i : ℝ)) * (hi - lo)

/-- `Length_2D_Threshold` (line 83): the 90th percentile of the edge-length
distribution. -/
def length2DThreshold (pts : ℕ → ℝ × ℝ) (es : EdgeDict) : ℝ :=
  percentile 90 (edgeLengths pts es)

/-- The rendering loop of lines 85-96: visit every stored edge again and
keep (plot) exactly those whose 2D length is `≤ Length_2D_Threshold`. -/
def retainedEdges (pts : ℕ → ℝ × ℝ) (es : EdgeDict) : List (ℕ × ℕ) :=
  (edgePairs es).foldl
    (fun acc p =>
      if len2D pts p ≤ length2DThreshold pts es then acc ++ [p] else acc) []

theorem foldl_filter_append {α : Type} (c : α → Prop) [DecidablePred c] :
    ∀ (ps : List α) (acc : List α),
      ps.foldl (fun acc p => if c p then acc ++ [p] else acc) acc
        = acc ++ ps.filter (fun p => decide (c p)) := by
  intro ps
  induction ps with
  | nil => intro acc; simp
  | cons q ps ih =>
      intro acc
      rw [List.foldl_cons]
      by_cases hq : c q
      · rw [if_pos hq, ih]
        simp [List.filter_cons, hq]
      · rw [if_neg hq, ih]
        simp [List.filter_cons, hq]

/-- C9.  The sparsification pass retains exactly the stored edges whose
projected-2D length is `≤` the 90th percentile of the edge-length
distribution (the comparison of line 93 is `<=`, boundary inclusive), and
drops every edge strictly longer than that threshold. -/
theorem sparsification_boundary_inclusive (pts : ℕ → ℝ × ℝ) (es : EdgeDict) :
    retainedEdges pts es
        = (edgePairs es).filter
            (fun p => decide (len2D pts p ≤ length2DThreshold pts es)) ∧
      ∀ p : ℕ × ℕ,
        p ∈ retainedEdges pts es
          ↔ p ∈ edgePairs es ∧ len2D pts p ≤ length2DThreshold pts es := by
  have hfilter : retainedEdges pts es
      = (edgePairs es).filter
          (fun p => decide (len2D pts p ≤ length2DThreshold pts es)) := by
    unfold retainedEdges
    rw [foldl_filter_append (fun p => len2D pts p ≤ length2DThreshold pts es)
      (edgePairs es) []]
    rfl
  refine ⟨hfilter, fun p => ?_⟩
  rw [hfilter, List.mem_filter]
  simp

/-- The tail of the script after the diffusion loop: the converged embedding
dictionary is serialized to `Node_Embeddings.json` (lines 43-52 of
`src/Embedding.py`) before the external 2D projection is attempted (lines
61-70); the projection — a parameter here, free to fail on degenerate
input — receives the vectors and cannot touch the export. -/
def scriptTail {d : ℕ} (nodes : List ℕ) (emb : ℕ → Vec d)
    (proj : List (List ℝ) → Except Unit (List (ℝ × ℝ))) :
    List (ℕ × List ℝ) × Except Unit (List (ℝ × ℝ)) :=
  (toSave nodes emb, proj (nodes.map fun u => List.ofFn (emb u)))

theorem toSave_lookup {d : ℕ} (emb : ℕ → Vec d) :
    ∀ (nodes : List ℕ) (u : ℕ), u ∈ nodes →
      (toSave nodes emb).lookup u = some (List.ofFn (emb u)) := by
  intro nodes
  induction nodes with
  | nil =>
      intro u hu
      cases hu
  | cons v ns ih =>
      intro u hu
      by_cases h : u = v
      · subst h
        simp [toSave, List.lookup_cons]
      · have hu2 : u ∈ ns := (List.mem_cons.mp hu).resolve_left h
        have hne : (u == v) = false := beq_false_of_ne h
        simp only [toSave, List.map_cons, List.lookup_cons, hne]
        exact ih u hu2

/-- A projection stub that always fails, standing for the external library
raising on degenerate input (for example fewer than 2 nodes). -/
def failProj : List (List ℝ) → Except Unit (List (ℝ × ℝ)) := fun _ => .error ()

/-- C10.  The exported `Node_Embeddings.json` content is a function of the
converged embedding dictionary alone: it is identical under any two
projection routines (including an always-failing one), and for every node id
in the node list the export maps it to the ordered list of its `d` floats —
a projection failure can neither corrupt nor discard it, because the export
is written before the projection is attempted. -/
theorem export_independent_of_projection {d : ℕ} (nodes : List ℕ)
    (emb : ℕ → Vec d)
    (proj proj2 : List (List ℝ) → Except Unit (List (ℝ × ℝ))) :
    (scriptTail nodes emb proj).1 = toSave nodes emb ∧
      (scriptTail nodes emb proj).1 = (scriptTail nodes emb proj2).1 ∧
      ∀ u ∈ nodes,
        ((scriptTail nodes emb proj).1).lookup u
          = some (List.ofFn (emb u)) :=
  ⟨rfl, rfl, fun u hu => toSave_lookup emb nodes u hu⟩

theorem export_independent_of_projection_witness :
    (7 ∈ ([7] : List ℕ)) ∧
      ((scriptTail [7] onesVec1 failProj).1 = toSave [7] onesVec1 ∧
        ((scriptTail [7] onesVec1 failProj).1).lookup 7
          = some (List.ofFn (onesVec1 7))) := by
  have h :=
    export_independent_of_projection [7] onesVec1 failProj failProj
  exact ⟨by decide, h.1, h.2.2 7 (by decide)⟩

end UTScholar
